import Mathlib

/-!
Verification development for the EEG motor-imagery training repository
(source files `src/utils.py` and `src/networks.py`).

The development shallowly embeds the parts of the code that the checked
properties are about:

* `interaug` (utils.py, lines 260-287): the segment-recombination data
  augmentation.  EEG windows are modelled as total functions `ℕ → ℚ`
  sending a time-sample index to the exact sample value at that time (the
  channel dimension plays no role in any property: every numpy slice in
  `interaug` copies all channels of a time range at once, so one abstract
  value per time index suffices).  The numpy draws
  `np.random.randint(0, n, 8)` are modelled by an oracle
  `rand : ℕ → ℕ → ℕ → ℕ` giving a raw natural for every call site
  `(class, ri, rj)`; the drawn index is `rand c ri rj % n`, which ranges
  over exactly `[0, n)` as the oracle varies, and `randint` on an empty
  range (`n = 0`) raises `ValueError`, modelled as `Option` failure.  The
  final `np.random.permutation(len(aug_data))` is modelled by an explicit
  parameter `perm`; theorems about shuffled output hypothesise
  `perm.Perm (List.range n)`, which is exactly the guarantee
  `np.random.permutation` gives.  The `float32` / `long` / device
  conversions at the end of `interaug` are value-preserving on the exact
  rational model and are therefore not represented.

* `TransformerBlock.forward` and `EEGTransformer.forward`
  (networks.py): the claims about these are dataflow claims (which
  sub-modules are invoked, and where the dropout result flows), so the
  learned sub-modules (attention, layer norms, linear maps, dropout
  realisation, SiLU) are carried as abstract function-valued fields of a
  structure, and `forward` is the exact composition the python code
  performs on them.

* the `convnet` feature stack and `PositionalEncoding.__init__`
  (networks.py): the claims about these are shape claims, embedded as
  the standard PyTorch output-shape arithmetic of each layer
  (`Conv2d`/`AvgPool2d` with padding 0 and dilation 1:
  `out = (in - kernel) / stride + 1` with floor division) and as the
  column-count discipline of the two in-place slice assignments in
  `PositionalEncoding.__init__` (an assignment `t[:, a::2] = v`
  succeeds iff the source column count equals the target column count or
  the source has a single column, which broadcasts).
-/

/-- One EEG window, as the exact sample value at each time index.
In the code a window is a `(1, 22, 1125)` float array; all copies in
`interaug` move every channel of a time range together, so the channel
axis is collapsed into the abstract value. -/
abbrev Window : Type := ℕ → ℚ

/-- Width of one spliced segment: the code copies slices
`rj * 125 : (rj + 1) * 125`. -/
def segWidth : ℕ := 125

/-- Number of segments the inner loop writes: `for rj in range(8)`. -/
def numSegs : ℕ := 8

/-- `np.where(label == c)` for a 1-D array: the list of positions
holding `c`, in increasing order. -/
def npWhere : List ℤ → ℤ → List ℕ
  | [], _ => []
  | x :: xs, c =>
      if x = c then 0 :: (npWhere xs c).map (· + 1)
      else (npWhere xs c).map (· + 1)

/-- Numpy integer-array ("fancy") indexing `xs[idxs]`: succeeds with the
selected elements when every index is in bounds, raises (`none`)
otherwise. -/
def selectIdx (xs : List α) (idxs : List ℕ) : Option (List α) :=
  idxs.mapM fun i => xs[i]?

/-- The synthetic window built by one iteration `ri` of the middle loop of
`interaug` for class `c`: segment `rj` (times `[125*rj, 125*(rj+1))`) is
copied from the class subset `tmp_data` at the drawn index
`rand c ri rj % tmp_data.length`; times outside the 8 written segments
keep the `np.zeros` initial value. -/
def mkAugWindow (rand : ℕ → ℕ → ℕ → ℕ) (c ri : ℕ) (tmp_data : List Window) :
    Window :=
  fun t =>
    if t / segWidth < numSegs then
      (tmp_data.getD (rand c ri (t / segWidth) % tmp_data.length) fun _ => 0) t
    else 0

/-- One iteration of the `for cls4aug in range(4)` loop of `interaug`:
select the class subset, and build `batch_size / 4` synthetic windows.
The guard mirrors the `ValueError` that `np.random.randint(0, 0, 8)`
raises: it fires exactly when at least one synthetic window is built
(`1 ≤ batch_size / 4`) from an empty class subset.  The appended label
list is the whole class subset of `label` (the `[:int(batch_size/4)]`
slice is commented out in the source). -/
def interaugClass (rand : ℕ → ℕ → ℕ → ℕ) (timg : List Window)
    (label : List ℤ) (batch_size : ℕ) (c : ℕ) :
    Option (List Window × List ℤ) :=
  (selectIdx timg (npWhere label (c : ℤ))).bind fun tmp_data =>
    (selectIdx label (npWhere label (c : ℤ))).bind fun tmp_label =>
      if 1 ≤ batch_size / 4 ∧ tmp_data.length = 0 then none
      else
        some ((List.range (batch_size / 4)).map fun ri =>
                mkAugWindow rand c ri tmp_data,
              tmp_label)

/-- `interaug(timg, label, batch_size)` from utils.py.  `rand` is the
randomness oracle for the segment draws and `perm` stands for
`np.random.permutation(len(aug_data))` (theorems hypothesise that it is
a permutation of `List.range len`).  The two `selectIdx` applications
model the lock-step fancy indexing `aug_data[aug_shuffle]`,
`aug_label[aug_shuffle]`, including the index error raised when
`aug_label` is shorter than an index of the shuffle. -/
def interaug (rand : ℕ → ℕ → ℕ → ℕ) (perm : List ℕ) (timg : List Window)
    (label : List ℤ) (batch_size : ℕ) : Option (List Window × List ℤ) :=
  ((List.range 4).mapM (interaugClass rand timg label batch_size)).bind
    fun parts =>
      (selectIdx ((parts.map Prod.fst).flatten) perm).bind fun aug_data =>
        (selectIdx ((parts.map Prod.snd).flatten) perm).map fun aug_label =>
          (aug_data, aug_label)

/-- The class-`c` rows of `timg`: the reference value of
`tmp_data = timg[np.where(label == c)]` when `timg` and `label` have the
same length. -/
def tmpData (timg : List Window) (label : List ℤ) (c : ℤ) : List Window :=
  ((timg.zip label).filter fun p => decide (p.2 = c)).map Prod.fst

/-- The class-`c` entries of `label`: the reference value of
`tmp_label = label[np.where(label == c)]`. -/
def tmpLabelL (label : List ℤ) (c : ℤ) : List ℤ :=
  label.filter fun x => decide (x = c)

/-- The block of synthetic windows `interaug` builds for class `c`. -/
def classWindows (rand : ℕ → ℕ → ℕ → ℕ) (timg : List Window)
    (label : List ℤ) (batch_size : ℕ) (c : ℕ) : List Window :=
  (List.range (batch_size / 4)).map fun ri =>
    mkAugWindow rand c ri (tmpData timg label (c : ℤ))

/-- `aug_data` before the shuffle: the four class blocks concatenated. -/
def augWindows (rand : ℕ → ℕ → ℕ → ℕ) (timg : List Window)
    (label : List ℤ) (batch_size : ℕ) : List Window :=
  classWindows rand timg label batch_size 0 ++
  classWindows rand timg label batch_size 1 ++
  classWindows rand timg label batch_size 2 ++
  classWindows rand timg label batch_size 3

/-- `aug_label` before the shuffle: the four class label subsets
concatenated. -/
def augLabels (label : List ℤ) : List ℤ :=
  tmpLabelL label 0 ++ tmpLabelL label 1 ++ tmpLabelL label 2 ++
  tmpLabelL label 3

/-- Provenance of a synthetic window from class `c`: for every segment
`j < 8`, its samples on `[125*j, 125*(j+1))` coincide with those of some
input window whose label is `c`. -/
def windowFromClass (timg : List Window) (label : List ℤ) (c : ℤ)
    (w : Window) : Prop :=
  ∀ j, j < numSegs → ∃ k : ℕ, label[k]? = some c ∧
    ∃ src : Window, timg[k]? = some src ∧
      ∀ t, segWidth * j ≤ t → t < segWidth * (j + 1) → w t = src t

/-- The constant window with value `v` at every time index (used for
concrete witnesses and counterexamples). -/
def constW (v : ℚ) : Window := fun _ => v

/-- Randomness oracle that always returns `0` (a legitimate realisation of
the numpy draws). -/
def rand0 : ℕ → ℕ → ℕ → ℕ := fun _ _ _ => 0

/-- The sub-modules a `TransformerBlock` owns (networks.py `__init__`,
lines 22-30), as abstract functions on an additive value type: the
claims about `forward` are dataflow claims, independent of the learned
weights inside each sub-module.  `dropout` is one realisation of the
dropout layer (one mask; identity in eval mode). -/
structure TransformerBlock (α : Type) where
  self_attn : α → α
  norm1 : α → α
  linear1 : α → α
  linear2 : α → α
  norm2 : α → α
  dropout : α → α
  silu : α → α

/-- `TransformerBlock.forward` (networks.py lines 32-41), statement by
statement; the python local `x` is rebound at every assignment. -/
def TransformerBlock.forward [Add α] (b : TransformerBlock α) (x : α) : α :=
  let attn_output := b.self_attn x
  let x1 := x + b.dropout attn_output
  let x2 := b.norm1 (x1 + attn_output)
  let ff_output := b.linear1 x2
  let ff_output2 := b.linear2 ff_output
  let x3 := x2 + b.dropout ff_output2
  let x4 := b.norm2 x3
  b.silu x4

/-- The dropout-free block computation described by the specification
(spec sections 4.3 and 9, "Discarded-dropout residual path"): the first
layer norm is applied to `X + attn_output` with the dropout branch
discarded as dead code, and the feed-forward residual likewise bypasses
the computed dropout. -/
def TransformerBlock.forwardSpecDropoutFree [Add α] (b : TransformerBlock α)
    (x : α) : α :=
  let attn_output := b.self_attn x
  let x2 := b.norm1 (x + attn_output)
  let ff_output2 := b.linear2 (b.linear1 x2)
  let x4 := b.norm2 (x2 + ff_output2)
  b.silu x4

/-- The modules `EEGTransformer.__init__` constructs (networks.py lines
44-79), as abstract functions on one abstract tensor type: the claim
about `forward` is a wiring claim.  `encoder` is the `nn.ModuleList` of
transformer blocks. -/
structure EEGTransformer (τ : Type) where
  input_embedding : τ → τ
  pos_encoding : τ → τ
  encoder : List (τ → τ)
  convnet : τ → τ
  fc : τ → τ

/-- The fixed (parameter-free) tensor operations `EEGTransformer.forward`
applies between modules: `x.unsqueeze(dim=1)`,
`torch.transpose(x, 1, 2)` and `torch.mean(x, dim=1)`. -/
structure TensorOps (τ : Type) where
  unsqueeze1 : τ → τ
  transpose12 : τ → τ
  mean1 : τ → τ

/-- `EEGTransformer.forward` (networks.py lines 81-91).  The
`input_embedding` / `pos_encoding` applications are commented out in the
source, so the computation goes straight from the raw batch into
`convnet`. -/
def EEGTransformer.forward (ops : TensorOps τ) (m : EEGTransformer τ)
    (x : τ) : τ :=
  let x1 := ops.unsqueeze1 x
  let x2 := m.convnet x1
  let x3 := ops.transpose12 x2
  let x4 := m.encoder.foldl (fun a layer => layer a) x3
  let x5 := ops.mean1 x4
  m.fc x5

/-- A 4-D tensor shape `(batch, channels, height, width)`. -/
structure Shape4 where
  n : ℕ
  c : ℕ
  h : ℕ
  w : ℕ
deriving DecidableEq

/-- Output shape of `nn.Conv2d` with kernel `(kh, kw)`, stride
`(sh, sw)`, padding 0, dilation 1 (the settings used in `convnet`):
each spatial dimension becomes `(in - kernel) / stride + 1` with floor
division, and the channel count becomes `outC`. -/
def conv2dShape (kh kw sh sw outC : ℕ) (s : Shape4) : Shape4 :=
  ⟨s.n, outC, (s.h - kh) / sh + 1, (s.w - kw) / sw + 1⟩

/-- Output shape of `nn.AvgPool2d` with kernel `(kh, kw)` and stride
`(sh, sw)` (padding 0): same floor-division arithmetic, channels
unchanged. -/
def avgPool2dShape (kh kw sh sw : ℕ) (s : Shape4) : Shape4 :=
  ⟨s.n, s.c, (s.h - kh) / sh + 1, (s.w - kw) / sw + 1⟩

/-- `nn.BatchNorm2d`, `nn.SiLU` and `nn.Dropout` are shape-preserving. -/
def shapePreserving (s : Shape4) : Shape4 := s

/-- `nn.Flatten(start_dim=2)`: collapse height and width into one axis. -/
def flatten2Shape (s : Shape4) : ℕ × ℕ × ℕ := (s.n, s.c, s.h * s.w)

/-- Shape of `self.convnet(x)` (networks.py lines 62-73) for an input of
shape `s`, with embedding width `e = input_embedding_size`: the layers
are Conv2d(1→40, (1,20)), BatchNorm, SiLU, Conv2d(40→40, (22,1)),
BatchNorm, SiLU, AvgPool2d((1,30),(1,15)), Dropout,
Conv2d(40→e, (1,1)), Flatten(start_dim=2). -/
def convnetShape (e : ℕ) (s : Shape4) : ℕ × ℕ × ℕ :=
  flatten2Shape
    (conv2dShape 1 1 1 1 e
      (shapePreserving
        (avgPool2dShape 1 30 1 15
          (shapePreserving (shapePreserving
            (conv2dShape 22 1 1 1 40
              (shapePreserving (shapePreserving
                (conv2dShape 1 20 1 1 40 s)))))))))

/-- Shape of `torch.transpose(x, 1, 2)` on a 3-D shape. -/
def transposeShape12 (s : ℕ × ℕ × ℕ) : ℕ × ℕ × ℕ := (s.1, s.2.2, s.2.1)

/-- Shape of the featurizer output as consumed by the encoder stack: a
batch of `n` raw windows enters `forward` as `(n, 22, 1125)`, is
unsqueezed to `(n, 1, 22, 1125)`, run through `convnet` and
transposed. -/
def featurizerShape (n e : ℕ) : ℕ × ℕ × ℕ :=
  transposeShape12 (convnetShape e ⟨n, 1, 22, 1125⟩)

/-- The sequence length produced by the convolution/pooling constants of
`convnet` on the fixed 1125-sample time axis. -/
def convSeqLen : ℕ := ((1125 - 20 + 1) - 30) / 15 + 1

/-- Column-count discipline of a PyTorch in-place strided-slice
assignment `t[:, a::2] = v` where the row counts already agree: the
assignment succeeds iff the source column count equals the target column
count, or the source has one column (which broadcasts, including into an
empty target slice). -/
def setSliceCols (srcCols tgtCols : ℕ) : Option Unit :=
  if srcCols = tgtCols ∨ srcCols = 1 then some () else none

/-- `PositionalEncoding.__init__` (networks.py lines 7-15), reduced to
the success/failure of its two slice assignments (the stored values are
transcendental and play no role in the construction-failure claim).
`div_term = exp(arange(0, E, 2) * ...)` has `⌈E/2⌉ = (E+1)/2` entries,
`position * div_term` is a `(num_channels, (E+1)/2)` matrix, and the
rows always match; the even-column slice `[:, 0::2]` has `(E+1)/2`
columns and the odd-column slice `[:, 1::2]` has `E/2` columns. -/
def PositionalEncoding.init (input_embedding_size num_channels : ℕ) :
    Option Unit :=
  (setSliceCols ((input_embedding_size + 1) / 2)
      ((input_embedding_size + 1) / 2)).bind fun _ =>
    setSliceCols ((input_embedding_size + 1) / 2) (input_embedding_size / 2)

/-! Concrete inputs used by witnesses and counterexamples. -/

/-- A class-balanced input batch: one window per class. -/
def timgA : List Window := [constW 0, constW 1, constW 2, constW 3]

/-- Labels of `timgA`. -/
def labelA : List ℤ := [0, 1, 2, 3]

/-- An input batch in which class 0 has two examples while
`batch_size = 4`: all 4 classes are represented but the batch is not
class-balanced. -/
def timgB : List Window := [constW 0, constW 1, constW 2, constW 3, constW 0]

/-- Labels of `timgB`. -/
def labelB : List ℤ := [0, 1, 2, 3, 0]

/-- An input batch with no example of class 0. -/
def timgC : List Window := [constW 1, constW 1, constW 2, constW 3]

/-- Labels of `timgC`. -/
def labelC : List ℤ := [1, 1, 2, 3]

/-- A class-complete but unbalanced batch of 8 windows. -/
def timgD : List Window :=
  [constW 0, constW 1, constW 2, constW 3, constW 3, constW 3, constW 2,
   constW 1]

/-- Labels of `timgD`. -/
def labelD : List ℤ := [0, 1, 2, 3, 3, 3, 2, 1]

/-- A permutation of `List.range 4` used as shuffle. -/
def permW : List ℕ := [2, 0, 3, 1]

/-- The identity shuffle on 4 elements. -/
def permId4 : List ℕ := [0, 1, 2, 3]

/-- Another permutation of `List.range 4` used as shuffle. -/
def permX : List ℕ := [1, 0, 3, 2]

/-- A permutation of `List.range 8` used as shuffle. -/
def permD : List ℕ := [7, 6, 5, 4, 3, 2, 1, 0]

/-- The synthetic windows `interaug` produces on
`(rand0, permId4, timgA, labelA, 4)`. -/
def wA : List Window :=
  [mkAugWindow rand0 0 0 [constW 0], mkAugWindow rand0 1 0 [constW 1],
   mkAugWindow rand0 2 0 [constW 2], mkAugWindow rand0 3 0 [constW 3]]

/-- An input batch with no example of class 3. -/
def timgE : List Window := [constW 0, constW 1, constW 2, constW 2]

/-- Labels of `timgE`. -/
def labelE : List ℤ := [0, 1, 2, 2]

/-- A transformer block over `ℚ` whose dropout mask drops everything
(every sub-module other than dropout is the identity). -/
def cxBlock : TransformerBlock ℚ :=
  ⟨id, id, id, id, id, fun _ => 0, id⟩

/-- A transformer block over `ℚ` in eval mode (dropout is the
identity). -/
def cxBlockEval : TransformerBlock ℚ :=
  ⟨id, id, id, id, id, id, id⟩

/-- Identity tensor operations over `ℚ` (shapes play no role in the
wiring claim). -/
def opsQ : TensorOps ℚ := ⟨id, id, id⟩

/-- A model over `ℚ`. -/
def mA : EEGTransformer ℚ :=
  ⟨fun v => v + 100, fun v => v + 200, [fun v => v * 2], fun v => v + 1,
   fun v => v - 3⟩

/-- A model agreeing with `mA` on `convnet`, `encoder` and `fc` but with
different `input_embedding` and `pos_encoding` parameters. -/
def mB : EEGTransformer ℚ :=
  ⟨fun v => v - 5, fun v => v * 7, [fun v => v * 2], fun v => v + 1,
   fun v => v - 3⟩

/-! ## Helper lemmas about the `interaug` embedding -/

lemma selectIdx_nil (xs : List α) : selectIdx xs [] = some [] := rfl

lemma selectIdx_cons (xs : List α) (i : ℕ) (idxs : List ℕ) :
    selectIdx xs (i :: idxs) =
      xs[i]?.bind fun a => (selectIdx xs idxs).map fun ys => a :: ys := by
  unfold selectIdx
  rw [List.mapM_cons]
  cases h1 : xs[i]? <;> cases h2 : idxs.mapM fun j => xs[j]? <;>
    simp [h1, h2]

lemma selectIdx_map_add_one (x : α) (xs : List α) (idxs : List ℕ) :
    selectIdx (x :: xs) (idxs.map (· + 1)) = selectIdx xs idxs := by
  induction idxs with
  | nil => rfl
  | cons i idxs ih =>
      rw [List.map_cons, selectIdx_cons, selectIdx_cons, ih]
      simp

lemma mem_npWhere {label : List ℤ} {c : ℤ} {i : ℕ}
    (h : i ∈ npWhere label c) : label[i]? = some c := by
  induction label generalizing i with
  | nil => simp [npWhere] at h
  | cons x xs ih =>
      unfold npWhere at h
      by_cases hx : x = c
      · rw [if_pos hx] at h
        rcases List.mem_cons.mp h with h0 | hmem
        · subst h0; simp [hx]
        · obtain ⟨j, hj, rfl⟩ := List.mem_map.mp hmem
          simpa using ih hj
      · rw [if_neg hx] at h
        obtain ⟨j, hj, rfl⟩ := List.mem_map.mp h
        simpa using ih hj

lemma npWhere_eq_nil {label : List ℤ} {c : ℤ} (h : label.count c = 0) :
    npWhere label c = [] := by
  induction label with
  | nil => rfl
  | cons x xs ih =>
      rw [List.count_cons] at h
      have hx : ¬x = c := by
        intro he
        simp [he] at h
      have hxs : xs.count c = 0 := by
        omega
      unfold npWhere
      rw [if_neg hx, ih hxs]
      rfl

lemma selectIdx_label_npWhere (label : List ℤ) (c : ℤ) :
    selectIdx label (npWhere label c) = some (tmpLabelL label c) := by
  induction label with
  | nil => rfl
  | cons x xs ih =>
      unfold npWhere
      by_cases hx : x = c
      · rw [if_pos hx, selectIdx_cons, selectIdx_map_add_one, ih]
        simp [tmpLabelL, List.filter_cons, hx]
      · rw [if_neg hx, selectIdx_map_add_one, ih]
        simp [tmpLabelL, List.filter_cons, hx]

lemma tmpData_cons (t : Window) (ts : List Window) (x : ℤ) (xs : List ℤ)
    (c : ℤ) :
    tmpData (t :: ts) (x :: xs) c =
      if x = c then t :: tmpData ts xs c else tmpData ts xs c := by
  by_cases hx : x = c <;> simp [tmpData, List.zip_cons_cons, List.filter_cons, hx]

lemma selectIdx_timg_npWhere :
    ∀ (label : List ℤ) (timg : List Window) (c : ℤ),
      timg.length = label.length →
      selectIdx timg (npWhere label c) = some (tmpData timg label c)
  | [], timg, c, hlen => by
      have : timg = [] := List.length_eq_zero.mp (by simpa using hlen)
      subst this
      rfl
  | x :: xs, timg, c, hlen => by
      rcases timg with _ | ⟨t, ts⟩
      · simp at hlen
      · have hlen2 : ts.length = xs.length := by simpa using hlen
        have ih := selectIdx_timg_npWhere xs ts c hlen2
        unfold npWhere
        rw [tmpData_cons]
        by_cases hx : x = c
        · rw [if_pos hx, if_pos hx, selectIdx_cons, selectIdx_map_add_one, ih]
          simp
        · rw [if_neg hx, if_neg hx, selectIdx_map_add_one, ih]

lemma tmpData_length :
    ∀ (label : List ℤ) (timg : List Window) (c : ℤ),
      timg.length = label.length →
      (tmpData timg label c).length = label.count c
  | [], timg, c, hlen => by
      have : timg = [] := List.length_eq_zero.mp (by simpa using hlen)
      subst this
      rfl
  | x :: xs, timg, c, hlen => by
      rcases timg with _ | ⟨t, ts⟩
      · simp at hlen
      · have hlen2 : ts.length = xs.length := by simpa using hlen
        have ih := tmpData_length xs ts c hlen2
        rw [tmpData_cons, List.count_cons]
        by_cases hx : x = c <;> simp [hx, ih]

lemma tmpLabelL_eq_replicate (label : List ℤ) (c : ℤ) :
    tmpLabelL label c = List.replicate (label.count c) c := by
  induction label with
  | nil => rfl
  | cons x xs ih =>
      rw [List.count_cons]
      by_cases hx : x = c <;>
        simp [tmpLabelL, List.filter_cons, hx, ih, List.replicate_succ] <;>
        simp [tmpLabelL] at ih <;> simp [ih, hx]

lemma selectIdx_length {xs ys : List α} {idxs : List ℕ}
    (h : selectIdx xs idxs = some ys) : ys.length = idxs.length := by
  induction idxs generalizing ys with
  | nil =>
      rw [selectIdx_nil] at h
      cases h
      rfl
  | cons i idxs ih =>
      rw [selectIdx_cons] at h
      rw [Option.bind_eq_some] at h
      obtain ⟨a, _, h2⟩ := h
      rw [Option.map_eq_some'] at h2
      obtain ⟨ys2, h3, rfl⟩ := h2
      simp [ih h3]

lemma selectIdx_getElem? {xs ys : List α} {idxs : List ℕ}
    (h : selectIdx xs idxs = some ys) :
    ∀ k i : ℕ, idxs[k]? = some i → ys[k]? = xs[i]? := by
  induction idxs generalizing ys with
  | nil =>
      intro k i hk
      rw [List.getElem?_nil] at hk
      cases hk
  | cons i0 idxs ih =>
      rw [selectIdx_cons] at h
      rw [Option.bind_eq_some] at h
      obtain ⟨a, ha, h2⟩ := h
      rw [Option.map_eq_some'] at h2
      obtain ⟨ys2, h3, rfl⟩ := h2
      intro k i hk
      cases k with
      | zero =>
          simp at hk
          subst hk
          simpa using ha.symm
      | succ k =>
          simp only [List.getElem?_cons_succ] at hk ⊢
          exact ih h3 k i hk

lemma selectIdx_mem {xs ys : List α} {idxs : List ℕ}
    (h : selectIdx xs idxs = some ys) : ∀ y ∈ ys, y ∈ xs := by
  induction idxs generalizing ys with
  | nil =>
      rw [selectIdx_nil] at h
      cases h
      intro y hy
      simp at hy
  | cons i0 idxs ih =>
      rw [selectIdx_cons] at h
      rw [Option.bind_eq_some] at h
      obtain ⟨a, ha, h2⟩ := h
      rw [Option.map_eq_some'] at h2
      obtain ⟨ys2, h3, rfl⟩ := h2
      intro y hy
      rcases List.mem_cons.mp hy with rfl | hy2
      · obtain ⟨hlt, ha2⟩ := List.getElem?_eq_some.mp ha
        rw [← ha2]
        exact List.getElem_mem hlt
      · exact ih h3 y hy2

lemma selectIdx_eq_map_getD (xs : List α) (idxs : List ℕ) (d : α)
    (h : ∀ i ∈ idxs, i < xs.length) :
    selectIdx xs idxs = some (idxs.map fun i => xs.getD i d) := by
  induction idxs with
  | nil => rfl
  | cons i idxs ih =>
      have hi : i < xs.length := h i (List.mem_cons_self i idxs)
      rw [selectIdx_cons, ih fun j hj => h j (List.mem_cons_of_mem i hj)]
      rw [List.getElem?_eq_getElem hi, List.map_cons]
      show some (xs[i] :: _) = some (xs.getD i d :: _)
      rw [List.getD_eq_getElem xs d hi]

lemma map_getD_range (xs : List α) (d : α) :
    (List.range xs.length).map (fun i => xs.getD i d) = xs := by
  induction xs with
  | nil => rfl
  | cons x xs ih =>
      rw [List.length_cons, List.range_succ_eq_map, List.map_cons,
        List.map_map]
      have hcomp : ((fun i => (x :: xs).getD i d) ∘ Nat.succ) =
          fun i => xs.getD i d := rfl
      rw [hcomp, ih]
      rfl

lemma selectIdx_perm {xs : List α} {idxs : List ℕ}
    (hperm : idxs.Perm (List.range xs.length)) :
    ∃ ys, selectIdx xs idxs = some ys ∧ ys.Perm xs := by
  rcases xs with _ | ⟨e, es⟩
  · have h0 : idxs = [] := by
      have := hperm
      simp only [List.length_nil, List.range_zero] at this
      exact this.eq_nil
    subst h0
    exact ⟨[], rfl, List.Perm.refl []⟩
  · have hb : ∀ i ∈ idxs, i < (e :: es).length := fun i hi =>
      List.mem_range.mp (hperm.subset hi)
    refine ⟨_, selectIdx_eq_map_getD (e :: es) idxs e hb, ?_⟩
    have h1 := hperm.map fun i => (e :: es).getD i e
    rw [map_getD_range (e :: es) e] at h1
    exact h1

lemma mapM_cons_eq_some {β γ : Type} {f : γ → Option β} {a : γ}
    {l : List γ} {res : List β} (h : (a :: l).mapM f = some res) :
    ∃ b rest, f a = some b ∧ l.mapM f = some rest ∧ res = b :: rest := by
  rw [List.mapM_cons] at h
  cases hfa : f a with
  | none =>
      rw [hfa] at h
      simp at h
  | some b =>
      rw [hfa] at h
      cases hml : l.mapM f with
      | none =>
          rw [hml] at h
          simp at h
      | some rest =>
          rw [hml] at h
          simp at h
          exact ⟨b, rest, rfl, rfl, h.symm⟩

lemma mapM4_eq_some {β : Type} {f : ℕ → Option β} {parts : List β}
    (h : (List.range 4).mapM f = some parts) :
    ∃ p0 p1 p2 p3, f 0 = some p0 ∧ f 1 = some p1 ∧ f 2 = some p2 ∧
      f 3 = some p3 ∧ parts = [p0, p1, p2, p3] := by
  have hr : List.range 4 = [0, 1, 2, 3] := rfl
  rw [hr] at h
  obtain ⟨p0, r1, h0, hm1, rfl⟩ := mapM_cons_eq_some h
  obtain ⟨p1, r2, h1, hm2, rfl⟩ := mapM_cons_eq_some hm1
  obtain ⟨p2, r3, h2, hm3, rfl⟩ := mapM_cons_eq_some hm2
  obtain ⟨p3, r4, h3, hm4, rfl⟩ := mapM_cons_eq_some hm3
  have h4 : r4 = [] := by
    rw [List.mapM_nil] at hm4
    exact (Option.some.inj hm4).symm
  subst h4
  exact ⟨p0, p1, p2, p3, h0, h1, h2, h3, rfl⟩

lemma mapM4_some {β : Type} {f : ℕ → Option β} {p0 p1 p2 p3 : β}
    (h0 : f 0 = some p0) (h1 : f 1 = some p1) (h2 : f 2 = some p2)
    (h3 : f 3 = some p3) :
    (List.range 4).mapM f = some [p0, p1, p2, p3] := by
  have hr : List.range 4 = [0, 1, 2, 3] := rfl
  rw [hr, List.mapM_cons, List.mapM_cons, List.mapM_cons, List.mapM_cons,
    List.mapM_nil, h0, h1, h2, h3]
  rfl

lemma interaugClass_eq (rand : ℕ → ℕ → ℕ → ℕ) (timg : List Window)
    (label : List ℤ) (bs : ℕ) (c : ℕ)
    (hlen : timg.length = label.length)
    (hcls : 1 ≤ bs / 4 → 0 < label.count (c : ℤ)) :
    interaugClass rand timg label bs c =
      some (classWindows rand timg label bs c, tmpLabelL label (c : ℤ)) := by
  unfold interaugClass
  rw [selectIdx_timg_npWhere label timg (c : ℤ) hlen, selectIdx_label_npWhere]
  have hguard : ¬(1 ≤ bs / 4 ∧ (tmpData timg label (c : ℤ)).length = 0) := by
    rintro ⟨hg1, hg2⟩
    rw [tmpData_length label timg (c : ℤ) hlen] at hg2
    have := hcls hg1
    omega
  simp only [Option.some_bind]
  rw [if_neg hguard]
  rfl

lemma interaug_run (rand : ℕ → ℕ → ℕ → ℕ) (perm : List ℕ)
    (timg : List Window) (label : List ℤ) (bs : ℕ)
    (hlen : timg.length = label.length)
    (hcls : 1 ≤ bs / 4 → ∀ c : ℕ, c < 4 → 0 < label.count (c : ℤ)) :
    interaug rand perm timg label bs =
      (selectIdx (augWindows rand timg label bs) perm).bind fun w =>
        (selectIdx (augLabels label) perm).map fun l => (w, l) := by
  have h0 := interaugClass_eq rand timg label bs 0 hlen fun h =>
    hcls h 0 (by omega)
  have h1 := interaugClass_eq rand timg label bs 1 hlen fun h =>
    hcls h 1 (by omega)
  have h2 := interaugClass_eq rand timg label bs 2 hlen fun h =>
    hcls h 2 (by omega)
  have h3 := interaugClass_eq rand timg label bs 3 hlen fun h =>
    hcls h 3 (by omega)
  unfold interaug
  rw [mapM4_some h0 h1 h2 h3]
  simp only [Option.some_bind, List.map_cons, List.map_nil, List.flatten]
  have hw : classWindows rand timg label bs 0 ++
      (classWindows rand timg label bs 1 ++
        (classWindows rand timg label bs 2 ++
          (classWindows rand timg label bs 3 ++ []))) =
      augWindows rand timg label bs := by
    simp [augWindows, List.append_assoc]
  have hl : tmpLabelL label 0 ++ (tmpLabelL label 1 ++
      (tmpLabelL label 2 ++ (tmpLabelL label 3 ++ []))) =
      augLabels label := by
    simp [augLabels, List.append_assoc]
  simp only [Nat.cast_zero, Nat.cast_one, Nat.cast_ofNat]
  rw [hw, hl]

lemma interaugClass_inv {rand : ℕ → ℕ → ℕ → ℕ} {timg : List Window}
    {label : List ℤ} {bs c : ℕ} {ws : List Window} {ls : List ℤ}
    (h : interaugClass rand timg label bs c = some (ws, ls)) :
    ∃ td, selectIdx timg (npWhere label (c : ℤ)) = some td ∧
      ws = ((List.range (bs / 4)).map fun ri => mkAugWindow rand c ri td) ∧
      ¬(1 ≤ bs / 4 ∧ td.length = 0) := by
  unfold interaugClass at h
  rw [Option.bind_eq_some] at h
  obtain ⟨td, htd, h⟩ := h
  rw [Option.bind_eq_some] at h
  obtain ⟨tl, _, h⟩ := h
  by_cases hg : 1 ≤ bs / 4 ∧ td.length = 0
  · rw [if_pos hg] at h
    cases h
  · rw [if_neg hg] at h
    cases Option.some.inj h
    exact ⟨td, htd, rfl, hg⟩

lemma selectIdx_npWhere_mem {timg : List Window} {label : List ℤ} {c : ℤ}
    {td : List Window} (h : selectIdx timg (npWhere label c) = some td) :
    ∀ x ∈ td, ∃ k : ℕ, timg[k]? = some x ∧ label[k]? = some c := by
  intro x hx
  obtain ⟨j, hj⟩ := List.mem_iff_getElem?.mp hx
  have hlen := selectIdx_length h
  have hjlt : j < (npWhere label c).length := by
    have hjl := (List.getElem?_eq_some.mp hj).1
    omega
  have hidx : (npWhere label c)[j]? = some ((npWhere label c)[j]) :=
    List.getElem?_eq_getElem hjlt
  have hsel := selectIdx_getElem? h j _ hidx
  have hitem : timg[(npWhere label c)[j]]? = some x := by
    rw [← hsel]
    exact hj
  have hmem : (npWhere label c)[j] ∈ npWhere label c := List.getElem_mem hjlt
  exact ⟨_, hitem, mem_npWhere hmem⟩

lemma mkAugWindow_prov {timg : List Window} {label : List ℤ} {c : ℤ}
    {td : List Window}
    (hmem : ∀ x ∈ td, ∃ k : ℕ, timg[k]? = some x ∧ label[k]? = some c)
    (hne : td.length ≠ 0) (rand : ℕ → ℕ → ℕ → ℕ) (c2 ri : ℕ) :
    windowFromClass timg label c (mkAugWindow rand c2 ri td) := by
  intro j hj
  have hpos : 0 < td.length := Nat.pos_of_ne_zero hne
  have hlt : rand c2 ri j % td.length < td.length := Nat.mod_lt _ hpos
  have hsrc : td.getD (rand c2 ri j % td.length) (fun _ => 0) =
      td[rand c2 ri j % td.length] := List.getD_eq_getElem td _ hlt
  have hsm : td[rand c2 ri j % td.length] ∈ td := List.getElem_mem hlt
  obtain ⟨k, hkt, hkl⟩ := hmem _ hsm
  refine ⟨k, hkl, td[rand c2 ri j % td.length], hkt, ?_⟩
  intro t ht1 ht2
  have hdiv : t / segWidth = j := by
    have e1 : segWidth = 125 := rfl
    rw [e1] at ht1 ht2
    rw [e1]
    omega
  unfold mkAugWindow
  rw [hdiv, if_pos hj, hsrc]

lemma count_tmpLabelL (label : List ℤ) (a c : ℤ) :
    (tmpLabelL label c).count a = if a = c then label.count c else 0 := by
  rw [tmpLabelL_eq_replicate, List.count_replicate]
  by_cases h : a = c
  · simp [h]
  · simp only [beq_iff_eq]
    rw [if_neg fun hh => h hh.symm, if_neg h]

lemma length_tmpLabelL (label : List ℤ) (c : ℤ) :
    (tmpLabelL label c).length = label.count c := by
  rw [tmpLabelL_eq_replicate, List.length_replicate]

lemma augLabels_length (label : List ℤ) :
    (augLabels label).length =
      label.count 0 + label.count 1 + label.count 2 + label.count 3 := by
  simp [augLabels, length_tmpLabelL]
  omega

lemma augLabels_count (label : List ℤ) (a : ℤ) :
    (augLabels label).count a =
      if a = 0 ∨ a = 1 ∨ a = 2 ∨ a = 3 then label.count a else 0 := by
  by_cases h0 : a = 0 <;> by_cases h1 : a = 1 <;> by_cases h2 : a = 2 <;>
    by_cases h3 : a = 3 <;>
    simp [augLabels, List.count_append, count_tmpLabelL, h0, h1, h2, h3]

lemma classWindows_length (rand : ℕ → ℕ → ℕ → ℕ) (timg : List Window)
    (label : List ℤ) (bs c : ℕ) :
    (classWindows rand timg label bs c).length = bs / 4 := by
  simp [classWindows]

lemma augWindows_length (rand : ℕ → ℕ → ℕ → ℕ) (timg : List Window)
    (label : List ℤ) (bs : ℕ) :
    (augWindows rand timg label bs).length = 4 * (bs / 4) := by
  simp [augWindows, classWindows]
  omega

lemma getElem?_append_left_len {α : Type} {A B : List α} (r : ℕ)
    (hr : r < A.length) : (A ++ B)[r]? = A[r]? := by
  rw [List.getElem?_append]
  exact if_pos hr

lemma getElem?_append_skip {α : Type} {A B : List α} (m r : ℕ)
    (hm : A.length = m) : (A ++ B)[m + r]? = B[r]? := by
  rw [List.getElem?_append_right (by omega)]
  congr 1
  omega

lemma augLabels_getElem? (label : List ℤ) (m : ℕ)
    (hbal : ∀ c : ℕ, c < 4 → label.count (c : ℤ) = m)
    (c r : ℕ) (hc : c < 4) (hr : r < m) :
    (augLabels label)[c * m + r]? = some ((c : ℕ) : ℤ) := by
  have e0 : tmpLabelL label 0 = List.replicate m 0 := by
    rw [tmpLabelL_eq_replicate]
    have := hbal 0 (by omega)
    rw [Nat.cast_zero] at this
    rw [this]
  have e1 : tmpLabelL label 1 = List.replicate m 1 := by
    rw [tmpLabelL_eq_replicate]
    have := hbal 1 (by omega)
    rw [Nat.cast_one] at this
    rw [this]
  have e2 : tmpLabelL label 2 = List.replicate m 2 := by
    rw [tmpLabelL_eq_replicate]
    have := hbal 2 (by omega)
    rw [Nat.cast_ofNat] at this
    rw [this]
  have e3 : tmpLabelL label 3 = List.replicate m 3 := by
    rw [tmpLabelL_eq_replicate]
    have := hbal 3 (by omega)
    rw [Nat.cast_ofNat] at this
    rw [this]
  unfold augLabels
  rw [e0, e1, e2, e3, List.append_assoc, List.append_assoc]
  interval_cases c
  · rw [show 0 * m + r = r from by omega,
      getElem?_append_left_len r (by simp [List.length_replicate]; omega),
      List.getElem?_replicate, if_pos hr, Nat.cast_zero]
  · rw [show 1 * m + r = m + r from by omega,
      getElem?_append_skip m r (List.length_replicate m _),
      getElem?_append_left_len r (by simp [List.length_replicate]; omega),
      List.getElem?_replicate, if_pos hr, Nat.cast_one]
  · rw [show 2 * m + r = m + (m + r) from by omega,
      getElem?_append_skip m (m + r) (List.length_replicate m _),
      getElem?_append_skip m r (List.length_replicate m _),
      getElem?_append_left_len r (by simp [List.length_replicate]; omega),
      List.getElem?_replicate, if_pos hr, Nat.cast_ofNat]
  · rw [show 3 * m + r = m + (m + (m + r)) from by omega,
      getElem?_append_skip m (m + (m + r)) (List.length_replicate m _),
      getElem?_append_skip m (m + r) (List.length_replicate m _),
      getElem?_append_skip m r (List.length_replicate m _),
      List.getElem?_replicate, if_pos hr, Nat.cast_ofNat]

lemma augWindows_getElem? (rand : ℕ → ℕ → ℕ → ℕ) (timg : List Window)
    (label : List ℤ) (bs : ℕ) (c r : ℕ) (hc : c < 4) (hr : r < bs / 4) :
    (augWindows rand timg label bs)[c * (bs / 4) + r]? =
      some (mkAugWindow rand c r (tmpData timg label (c : ℤ))) := by
  have hlen : ∀ c2 : ℕ, (classWindows rand timg label bs c2).length = bs / 4 :=
    fun c2 => classWindows_length rand timg label bs c2
  have hval : ∀ c2 : ℕ, (classWindows rand timg label bs c2)[r]? =
      some (mkAugWindow rand c2 r (tmpData timg label (c2 : ℤ))) := by
    intro c2
    unfold classWindows
    rw [List.getElem?_map, List.getElem?_range hr]
    rfl
  unfold augWindows
  rw [List.append_assoc, List.append_assoc]
  interval_cases c
  · rw [show 0 * (bs / 4) + r = r from by omega,
      getElem?_append_left_len r (by rw [hlen 0]; omega), hval 0]
  · rw [show 1 * (bs / 4) + r = bs / 4 + r from by omega,
      getElem?_append_skip (bs / 4) r (hlen 0),
      getElem?_append_left_len r (by rw [hlen 1]; omega), hval 1]
  · rw [show 2 * (bs / 4) + r = bs / 4 + (bs / 4 + r) from by omega,
      getElem?_append_skip (bs / 4) (bs / 4 + r) (hlen 0),
      getElem?_append_skip (bs / 4) r (hlen 1),
      getElem?_append_left_len r (by rw [hlen 2]; omega), hval 2]
  · rw [show 3 * (bs / 4) + r = bs / 4 + (bs / 4 + (bs / 4 + r)) from by omega,
      getElem?_append_skip (bs / 4) (bs / 4 + (bs / 4 + r)) (hlen 0),
      getElem?_append_skip (bs / 4) (bs / 4 + r) (hlen 1),
      getElem?_append_skip (bs / 4) r (hlen 2), hval 3]

lemma mapM4_none {β : Type} {f : ℕ → Option β} {c : ℕ} (hc : c < 4)
    (hnone : f c = none) : (List.range 4).mapM f = none := by
  have hr : List.range 4 = [0, 1, 2, 3] := rfl
  rw [hr]
  interval_cases c
  · rw [List.mapM_cons, hnone]
    rfl
  · cases q0 : f 0 <;>
      rw [List.mapM_cons, List.mapM_cons, q0, hnone] <;> rfl
  · cases q0 : f 0 <;> cases q1 : f 1 <;>
      rw [List.mapM_cons, List.mapM_cons, List.mapM_cons, q0, q1, hnone] <;>
      rfl
  · cases q0 : f 0 <;> cases q1 : f 1 <;> cases q2 : f 2 <;>
      rw [List.mapM_cons, List.mapM_cons, List.mapM_cons, List.mapM_cons,
        q0, q1, q2, hnone] <;> rfl

lemma interaugClass_windows_prov {rand : ℕ → ℕ → ℕ → ℕ}
    {timg : List Window} {label : List ℤ} {bs c : ℕ} {ws : List Window}
    {ls : List ℤ} (h : interaugClass rand timg label bs c = some (ws, ls)) :
    ∀ f ∈ ws, windowFromClass timg label ((c : ℕ) : ℤ) f := by
  intro f hf
  obtain ⟨td, htd, rfl, hguard⟩ := interaugClass_inv h
  rw [List.mem_map] at hf
  obtain ⟨ri, hri, rfl⟩ := hf
  have hm1 : 1 ≤ bs / 4 := by
    have := List.mem_range.mp hri
    omega
  have hne : td.length ≠ 0 := fun h0 => hguard ⟨hm1, h0⟩
  exact mkAugWindow_prov (selectIdx_npWhere_mem htd) hne rand c ri

/-! ## Claim theorems -/

/-- Claim C8: the convolutional featurizer is shape-deterministic.  For
every batch size `n` and embedding width `e`, an input batch of shape
`(n, 1, 22, 1125)` produces a featurizer output of shape
`(n, L, e)` where `L = convSeqLen` does not depend on `n` and is
computed only from the time length 1125 and the fixed kernel/stride
constants of `convnet`; concretely `L = 72`. -/
theorem convnet_shape_deterministic :
    (∀ n e : ℕ, featurizerShape n e = (n, convSeqLen, e)) ∧
      convSeqLen = 72 := by
  refine ⟨fun n e => ?_, ?_⟩ <;>
    norm_num [featurizerShape, convnetShape, conv2dShape, avgPool2dShape,
      shapePreserving, flatten2Shape, transposeShape12, convSeqLen]

/-- Claim C10, counterexample: `PositionalEncoding.__init__` with the odd
width `input_embedding_size = 1` constructs successfully — the cosine
slice `[:, 1::2]` is empty and the single computed cosine column
broadcasts into it — so "construction succeeds only when
`input_embedding_size` is even" is false as stated. -/
theorem positionalEncoding_odd_one_counterexample :
    PositionalEncoding.init 1 22 = some () ∧ 1 % 2 = 1 := by decide

/-- Claim C10 (amended): `PositionalEncoding.__init__` fails at
construction time exactly when `input_embedding_size` is odd *and at
least 3*: then the cosine assignment writes `(E+1)/2` computed columns
into `E/2` target columns with `(E+1)/2 ≥ 2`, which neither matches nor
broadcasts.  Even widths and the degenerate width `E = 1` construct
successfully. -/
theorem positionalEncoding_init_none_iff :
    ∀ e c : ℕ,
      PositionalEncoding.init e c = none ↔ e % 2 = 1 ∧ 3 ≤ e := by
  intro e c
  unfold PositionalEncoding.init setSliceCols
  rw [if_pos (Or.inl rfl)]
  show (if ((e + 1) / 2 = e / 2 ∨ (e + 1) / 2 = 1) then some ()
      else none) = none ↔ e % 2 = 1 ∧ 3 ≤ e
  split_ifs with h
  · simp only [reduceCtorEq, false_iff]
    omega
  · simp only [true_iff]
    omega

/-- Claim C4, counterexample: a transformer block over `ℚ` whose
sub-modules are identities and whose dropout mask drops everything
produces `2` on input `1`, while the dropout-free computation described
by the specification produces `4`; dropout therefore does affect the
block output, and the "dead code" reading of
`x = x + self.dropout(attn_output)` is false (the rebound `x` is used by
the next statement). -/
theorem transformerBlock_dropout_counterexample :
    TransformerBlock.forward cxBlock 1 ≠
      TransformerBlock.forwardSpecDropoutFree cxBlock 1 := by
  norm_num [TransformerBlock.forward, TransformerBlock.forwardSpecDropoutFree,
    cxBlock]

/-- Claim C4 (amended): dropout takes effect on both residual paths of
`TransformerBlock.forward`: the first layer norm receives
`(x + dropout(attn)) + attn` and the second layer norm receives the
dropout-processed feed-forward residual.  Only when the dropout function
is the identity (eval mode) does the block compute the closed form
`silu (norm2 (norm1 (x + attn + attn) + ff(norm1 (x + attn + attn))))`
— note the attention output is added twice, not the dropout-free
computation the specification describes. -/
theorem transformerBlock_forward_eval_mode {α : Type} [Add α]
    (b : TransformerBlock α) (x : α) (h : b.dropout = id) :
    TransformerBlock.forward b x =
      b.silu (b.norm2 (b.norm1 (x + b.self_attn x + b.self_attn x) +
        b.linear2 (b.linear1
          (b.norm1 (x + b.self_attn x + b.self_attn x))))) := by
  unfold TransformerBlock.forward
  rw [h]
  rfl

/-- Witness for `transformerBlock_forward_eval_mode` at a concrete
block. -/
theorem transformerBlock_forward_eval_mode_witness :
    cxBlockEval.dropout = id ∧
    TransformerBlock.forward cxBlockEval 1 =
      cxBlockEval.silu (cxBlockEval.norm2 (cxBlockEval.norm1
        (1 + cxBlockEval.self_attn 1 + cxBlockEval.self_attn 1) +
        cxBlockEval.linear2 (cxBlockEval.linear1 (cxBlockEval.norm1
          (1 + cxBlockEval.self_attn 1 + cxBlockEval.self_attn 1))))) :=
  ⟨rfl, transformerBlock_forward_eval_mode cxBlockEval 1 rfl⟩

/-- Claim C7: `EEGTransformer.forward` never invokes `input_embedding`
or `pos_encoding` (both applications are commented out): two models
agreeing on `convnet`, `encoder` and `fc` produce identical outputs on
every input whatever their `input_embedding`/`pos_encoding` components,
and the output equals the pipeline
convnet → transpose → encoder blocks → mean-pool → classification head
applied to the raw input. -/
theorem eegTransformer_forward_wiring {τ : Type} (ops : TensorOps τ)
    (m m2 : EEGTransformer τ) (x : τ) (hconv : m.convnet = m2.convnet)
    (henc : m.encoder = m2.encoder) (hfc : m.fc = m2.fc) :
    EEGTransformer.forward ops m x = EEGTransformer.forward ops m2 x ∧
    EEGTransformer.forward ops m x =
      m.fc (ops.mean1 (m.encoder.foldl (fun a layer => layer a)
        (ops.transpose12 (m.convnet (ops.unsqueeze1 x))))) := by
  unfold EEGTransformer.forward
  rw [hconv, henc, hfc]
  exact ⟨rfl, rfl⟩

/-- Witness for `eegTransformer_forward_wiring`: `mA` and `mB` differ on
the dead components yet produce the same output. -/
theorem eegTransformer_forward_wiring_witness :
    mA.input_embedding 0 ≠ mB.input_embedding 0 ∧
    mA.pos_encoding 1 ≠ mB.pos_encoding 1 ∧
    EEGTransformer.forward opsQ mA 5 = EEGTransformer.forward opsQ mB 5 ∧
    EEGTransformer.forward opsQ mA 5 =
      mA.fc (opsQ.mean1 (mA.encoder.foldl (fun a layer => layer a)
        (opsQ.transpose12 (mA.convnet (opsQ.unsqueeze1 5))))) := by
  refine ⟨by norm_num [mA, mB], by norm_num [mA, mB], ?_, ?_⟩
  · exact (eegTransformer_forward_wiring opsQ mA mB 5 rfl rfl rfl).1
  · exact (eegTransformer_forward_wiring opsQ mA mB 5 rfl rfl rfl).2

/-- Claim C5, counterexample: with class 0 absent from the input batch
and `batch_size = 4`, `interaug` raises (`np.random.randint(0, 0, 8)`
fails with `ValueError` on the empty class subset), modelled as `none` —
contradicting the claim that no error is raised. -/
theorem interaug_missing_class_counterexample :
    (0 : ℤ) ∉ labelC ∧ interaug rand0 permId4 timgC labelC 4 = none := by
  constructor
  · decide
  · rfl

/-- Claim C5 (amended): whenever some class `c < 4` has no example in
the input batch and at least one synthetic window per class is requested
(`1 ≤ batch_size / 4`), `interaug` raises an error (the `randint` draw
over the empty class subset fails) instead of returning a result. -/
theorem interaug_missing_class_fails (rand : ℕ → ℕ → ℕ → ℕ)
    (perm : List ℕ) (timg : List Window) (label : List ℤ) (bs c : ℕ)
    (hc : c < 4) (hm : 1 ≤ bs / 4)
    (h0 : label.count ((c : ℕ) : ℤ) = 0) :
    interaug rand perm timg label bs = none := by
  have hclass : interaugClass rand timg label bs c = none := by
    unfold interaugClass
    rw [npWhere_eq_nil h0]
    simp only [selectIdx_nil, Option.some_bind]
    rw [if_pos ⟨hm, rfl⟩]
  unfold interaug
  rw [mapM4_none hc hclass]
  rfl

/-- Witness for `interaug_missing_class_fails`: class 3 is missing from
`labelE = [0,1,2,2]`. -/
theorem interaug_missing_class_fails_witness :
    (3 : ℕ) < 4 ∧ 1 ≤ 4 / 4 ∧ labelE.count ((3 : ℕ) : ℤ) = 0 ∧
    interaug rand0 permId4 timgE labelE 4 = none :=
  ⟨by decide, by decide, by decide,
    interaug_missing_class_fails rand0 permId4 timgE labelE 4 3 (by decide)
      (by decide) (by decide)⟩

/-- Claim C6, counterexample: `interaug` with `batch_size = 3` neither
raises nor rejects: it returns a (degenerate, empty) result —
`int(3/4) = 0` synthetic windows are built per class and the empty
shuffle returns empty arrays. -/
theorem interaug_batchsize3_counterexample :
    interaug rand0 [] timgA labelA 3 = some ([], []) := rfl

/-- Claim C6 (amended): calling `interaug` with `batch_size = 3` (not
divisible by 4) silently returns an empty augmented batch — zero windows
and zero labels — rather than raising a failure or rejecting the input
(the shuffle is `np.random.permutation(0) = []`). -/
theorem interaug_batchsize3_returns_empty (rand : ℕ → ℕ → ℕ → ℕ)
    (timg : List Window) (label : List ℤ)
    (hlen : timg.length = label.length) :
    interaug rand [] timg label 3 = some ([], []) := by
  rw [interaug_run rand [] timg label 3 hlen fun h => absurd h (by omega)]
  rfl

/-- Witness for `interaug_batchsize3_returns_empty` on a concrete
batch. -/
theorem interaug_batchsize3_returns_empty_witness :
    timgD.length = labelD.length ∧
    interaug rand0 [] timgD labelD 3 = some ([], []) :=
  ⟨rfl, interaug_batchsize3_returns_empty rand0 timgD labelD rfl⟩

/-- Claim C1, counterexample: on `labelB = [0,1,2,3,0]` (all 4 classes
represented, `batch_size = 4` divisible by 4) with the identity shuffle,
`interaug` returns labels `[0,0,1,2]`: class 3 occurs 0 times, not
`batch_size/4 = 1` — because the source appends the *whole* class label
subset (the balancing slice is commented out) and the shuffle then
truncates the concatenated label array at `batch_size` entries. -/
theorem interaug_counts_counterexample :
    (0 : ℤ) ∈ labelB ∧ (1 : ℤ) ∈ labelB ∧ (2 : ℤ) ∈ labelB ∧
    (3 : ℤ) ∈ labelB ∧ 4 % 4 = 0 ∧ List.Perm permId4 (List.range 4) ∧
    (interaug rand0 permId4 timgB labelB 4).map (fun p => p.2.count 3) =
      some 0 ∧ 4 / 4 = 1 := by
  decide

/-- Claim C1 (amended): when additionally the input batch is
class-balanced — every class `c < 4` occurs exactly `batch_size/4` times
among the input labels — `interaug` returns exactly `batch_size`
synthetic windows and `batch_size` labels, and each of the 4 class
labels occurs exactly `batch_size/4` times among the returned labels.
`perm` ranges over the permutations `np.random.permutation` can
return. -/
theorem interaug_balanced_output_counts (rand : ℕ → ℕ → ℕ → ℕ)
    (perm : List ℕ) (timg : List Window) (label : List ℤ) (bs : ℕ)
    (hlen : timg.length = label.length) (hdvd : bs % 4 = 0)
    (hbal : ∀ c : ℕ, c < 4 → label.count ((c : ℕ) : ℤ) = bs / 4)
    (hperm : perm.Perm (List.range bs)) :
    ∃ w l, interaug rand perm timg label bs = some (w, l) ∧
      w.length = bs ∧ l.length = bs ∧
      ∀ c : ℕ, c < 4 → l.count ((c : ℕ) : ℤ) = bs / 4 := by
  have hcls : 1 ≤ bs / 4 → ∀ c : ℕ, c < 4 → 0 < label.count ((c : ℕ) : ℤ) := by
    intro h c hc
    rw [hbal c hc]
    omega
  have b0 : label.count (0 : ℤ) = bs / 4 := by
    have h := hbal 0 (by omega)
    rwa [Nat.cast_zero] at h
  have b1 : label.count (1 : ℤ) = bs / 4 := by
    have h := hbal 1 (by omega)
    rwa [Nat.cast_one] at h
  have b2 : label.count (2 : ℤ) = bs / 4 := by
    have h := hbal 2 (by omega)
    rwa [Nat.cast_ofNat] at h
  have b3 : label.count (3 : ℤ) = bs / 4 := by
    have h := hbal 3 (by omega)
    rwa [Nat.cast_ofNat] at h
  have hWlen : (augWindows rand timg label bs).length = bs := by
    rw [augWindows_length]
    omega
  have hLlen : (augLabels label).length = bs := by
    rw [augLabels_length, b0, b1, b2, b3]
    omega
  have hp1 : perm.Perm (List.range (augWindows rand timg label bs).length) := by
    rw [hWlen]
    exact hperm
  have hp2 : perm.Perm (List.range (augLabels label).length) := by
    rw [hLlen]
    exact hperm
  obtain ⟨w, hw, hwp⟩ := selectIdx_perm hp1
  obtain ⟨l, hl, hlp⟩ := selectIdx_perm hp2
  refine ⟨w, l, ?_, ?_, ?_, ?_⟩
  · rw [interaug_run rand perm timg label bs hlen hcls, hw, hl]
    rfl
  · rw [hwp.length_eq, hWlen]
  · rw [hlp.length_eq, hLlen]
  · intro c hc
    rw [hlp.count_eq, augLabels_count]
    have hcase : ((c : ℕ) : ℤ) = 0 ∨ ((c : ℕ) : ℤ) = 1 ∨
        ((c : ℕ) : ℤ) = 2 ∨ ((c : ℕ) : ℤ) = 3 := by
      interval_cases c <;> norm_num
    rw [if_pos hcase]
    exact hbal c hc

/-- Witness for `interaug_balanced_output_counts` on the balanced batch
`labelA` with shuffle `permW`. -/
theorem interaug_balanced_output_counts_witness :
    List.Perm permW (List.range 4) ∧
    (∃ w l, interaug rand0 permW timgA labelA 4 = some (w, l) ∧
      w.length = 4 ∧ l.length = 4 ∧
      ∀ c : ℕ, c < 4 → l.count ((c : ℕ) : ℤ) = 4 / 4) :=
  ⟨by decide,
    interaug_balanced_output_counts rand0 permW timgA labelA 4 rfl
      (by decide) (by decide) (by decide)⟩

/-- Claim C9: when the input labels number exactly `batch_size`
(divisible by 4), take values in the 4 classes (the `LabeledBatch` data
model), and every class is represented, the returned label array is a
permutation of the input label array: each class's output count equals
its input count. -/
theorem interaug_labels_perm_of_input (rand : ℕ → ℕ → ℕ → ℕ)
    (perm : List ℕ) (timg : List Window) (label : List ℤ) (bs : ℕ)
    (hlen : timg.length = label.length) (hsize : label.length = bs)
    (hdvd : bs % 4 = 0)
    (hpure : ∀ x ∈ label, x = 0 ∨ x = 1 ∨ x = 2 ∨ x = 3)
    (hrep : ∀ c : ℕ, c < 4 → 0 < label.count ((c : ℕ) : ℤ))
    (hperm : perm.Perm (List.range bs)) :
    ∃ w l, interaug rand perm timg label bs = some (w, l) ∧
      l.Perm label := by
  have hcls : 1 ≤ bs / 4 → ∀ c : ℕ, c < 4 → 0 < label.count ((c : ℕ) : ℤ) :=
    fun _ => hrep
  have haug : (augLabels label).Perm label := by
    rw [List.perm_iff_count]
    intro a
    rw [augLabels_count]
    by_cases h : a = 0 ∨ a = 1 ∨ a = 2 ∨ a = 3
    · rw [if_pos h]
    · rw [if_neg h]
      symm
      rw [List.count_eq_zero]
      intro hmem
      exact h (hpure a hmem)
  have hWlen : (augWindows rand timg label bs).length = bs := by
    rw [augWindows_length]
    omega
  have hLlen : (augLabels label).length = bs := by
    rw [haug.length_eq, hsize]
  have hp1 : perm.Perm (List.range (augWindows rand timg label bs).length) := by
    rw [hWlen]
    exact hperm
  have hp2 : perm.Perm (List.range (augLabels label).length) := by
    rw [hLlen]
    exact hperm
  obtain ⟨w, hw, hwp⟩ := selectIdx_perm hp1
  obtain ⟨l, hl, hlp⟩ := selectIdx_perm hp2
  refine ⟨w, l, ?_, hlp.trans haug⟩
  rw [interaug_run rand perm timg label bs hlen hcls, hw, hl]
  rfl

/-- Witness for `interaug_labels_perm_of_input` on the class-complete
but unbalanced batch `labelD` (counts 1, 2, 2, 3). -/
theorem interaug_labels_perm_of_input_witness :
    List.Perm permD (List.range 8) ∧
    (∃ w l, interaug rand0 permD timgD labelD 8 = some (w, l) ∧
      l.Perm labelD) :=
  ⟨by decide,
    interaug_labels_perm_of_input rand0 permD timgD labelD 8 rfl rfl
      (by decide) (by decide) (by decide) (by decide)⟩

/-- Claim C2, counterexample: on `labelB = [0,1,2,3,0]` with
`batch_size = 4` and the identity shuffle, the same permutation is
applied to both arrays, yet pairing between the returned label and the
class the window was built from is broken: output position 1 carries
label 0 while its window was spliced from class-1 examples (its sample
at time 0 is 1, whereas both class-0 input windows — positions 0 and 4
of `timgB` — have sample 0 at time 0, so no class-0 source can have
produced segment 0 of that window). -/
theorem interaug_pairing_counterexample :
    (0 : ℤ) ∈ labelB ∧ (1 : ℤ) ∈ labelB ∧ (2 : ℤ) ∈ labelB ∧
    (3 : ℤ) ∈ labelB ∧ 4 % 4 = 0 ∧ List.Perm permId4 (List.range 4) ∧
    (interaug rand0 permId4 timgB labelB 4).map (fun p => p.2) =
      some [0, 0, 1, 2] ∧
    (interaug rand0 permId4 timgB labelB 4).map
      (fun p => p.1.map fun f => f 0) = some [0, 1, 2, 3] ∧
    timgB.map (fun f => f 0) = [0, 1, 2, 3, 0] := by
  decide

/-- Claim C2 (amended): when additionally the input batch is
class-balanced (every class occurs exactly `batch_size/4` times among
the input labels), the shared shuffle preserves pairing: at every output
index `i` the returned label is the class from whose examples the
returned window was spliced (every segment of the window comes from an
input window carrying that label). -/
theorem interaug_balanced_pairing (rand : ℕ → ℕ → ℕ → ℕ)
    (perm : List ℕ) (timg : List Window) (label : List ℤ) (bs : ℕ)
    (hlen : timg.length = label.length) (hdvd : bs % 4 = 0)
    (hbal : ∀ c : ℕ, c < 4 → label.count ((c : ℕ) : ℤ) = bs / 4)
    (hperm : perm.Perm (List.range bs)) :
    ∃ w l, interaug rand perm timg label bs = some (w, l) ∧
      ∀ i : ℕ, i < bs → ∃ c : ℕ, c < 4 ∧ l[i]? = some ((c : ℕ) : ℤ) ∧
        ∃ f : Window, w[i]? = some f ∧
          windowFromClass timg label ((c : ℕ) : ℤ) f := by
  have hcls : 1 ≤ bs / 4 → ∀ c : ℕ, c < 4 → 0 < label.count ((c : ℕ) : ℤ) := by
    intro h c hc
    rw [hbal c hc]
    omega
  have hWlen : (augWindows rand timg label bs).length = bs := by
    rw [augWindows_length]
    omega
  have hLlen : (augLabels label).length = bs := by
    have b0 : label.count (0 : ℤ) = bs / 4 := by
      have h := hbal 0 (by omega)
      rwa [Nat.cast_zero] at h
    have b1 : label.count (1 : ℤ) = bs / 4 := by
      have h := hbal 1 (by omega)
      rwa [Nat.cast_one] at h
    have b2 : label.count (2 : ℤ) = bs / 4 := by
      have h := hbal 2 (by omega)
      rwa [Nat.cast_ofNat] at h
    have b3 : label.count (3 : ℤ) = bs / 4 := by
      have h := hbal 3 (by omega)
      rwa [Nat.cast_ofNat] at h
    rw [augLabels_length, b0, b1, b2, b3]
    omega
  have hp1 : perm.Perm (List.range (augWindows rand timg label bs).length) := by
    rw [hWlen]
    exact hperm
  have hp2 : perm.Perm (List.range (augLabels label).length) := by
    rw [hLlen]
    exact hperm
  obtain ⟨w, hw, _⟩ := selectIdx_perm hp1
  obtain ⟨l, hl, _⟩ := selectIdx_perm hp2
  refine ⟨w, l, ?_, ?_⟩
  · rw [interaug_run rand perm timg label bs hlen hcls, hw, hl]
    rfl
  intro i hi
  have hplen : perm.length = bs := by
    rw [hperm.length_eq, List.length_range]
  have hilt : i < perm.length := by omega
  obtain ⟨k, hpk⟩ : ∃ k, perm[i]? = some k :=
    ⟨perm[i], List.getElem?_eq_getElem hilt⟩
  have hkbs : k < bs := by
    have hkmem : k ∈ perm := by
      obtain ⟨h1, h2⟩ := List.getElem?_eq_some.mp hpk
      rw [← h2]
      exact List.getElem_mem h1
    exact List.mem_range.mp (hperm.subset hkmem)
  have hmpos : 0 < bs / 4 := by omega
  have hcd : k / (bs / 4) < 4 := by
    have h3 : k / (bs / 4) * (bs / 4) ≤ k := Nat.div_mul_le_self k (bs / 4)
    by_contra hcon
    push_neg at hcon
    have h2 : 4 * (bs / 4) ≤ k / (bs / 4) * (bs / 4) :=
      Nat.mul_le_mul_right _ hcon
    omega
  have hrm : k % (bs / 4) < bs / 4 := Nat.mod_lt k hmpos
  have hkeq : k = k / (bs / 4) * (bs / 4) + k % (bs / 4) := by
    have hdm := Nat.div_add_mod k (bs / 4)
    rw [Nat.mul_comm] at hdm
    omega
  obtain ⟨c2, r, hc2, hr2, rfl⟩ :
      ∃ c2 r, c2 < 4 ∧ r < bs / 4 ∧ k = c2 * (bs / 4) + r :=
    ⟨k / (bs / 4), k % (bs / 4), hcd, hrm, hkeq⟩
  have hLk := augLabels_getElem? label (bs / 4) hbal c2 r hc2 hr2
  have hWk := augWindows_getElem? rand timg label bs c2 r hc2 hr2
  have hli := selectIdx_getElem? hl i _ hpk
  have hwi := selectIdx_getElem? hw i _ hpk
  refine ⟨c2, hc2, by rw [hli, hLk],
    mkAugWindow rand c2 r (tmpData timg label ((c2 : ℕ) : ℤ)),
    by rw [hwi, hWk], ?_⟩
  have htd : selectIdx timg (npWhere label ((c2 : ℕ) : ℤ)) =
      some (tmpData timg label ((c2 : ℕ) : ℤ)) :=
    selectIdx_timg_npWhere label timg _ hlen
  have hne : (tmpData timg label ((c2 : ℕ) : ℤ)).length ≠ 0 := by
    rw [tmpData_length label timg _ hlen, hbal c2 hc2]
    omega
  exact mkAugWindow_prov (selectIdx_npWhere_mem htd) hne rand c2 r

/-- Witness for `interaug_balanced_pairing` on the balanced batch
`labelA` with shuffle `permX`. -/
theorem interaug_balanced_pairing_witness :
    List.Perm permX (List.range 4) ∧
    (∃ w l, interaug rand0 permX timgA labelA 4 = some (w, l) ∧
      ∀ i : ℕ, i < 4 → ∃ c : ℕ, c < 4 ∧ l[i]? = some ((c : ℕ) : ℤ) ∧
        ∃ f : Window, w[i]? = some f ∧
          windowFromClass timgA labelA ((c : ℕ) : ℤ) f) :=
  ⟨by decide,
    interaug_balanced_pairing rand0 permX timgA labelA 4 rfl (by decide)
      (by decide) (by decide)⟩

/-- Claim C3: whenever `interaug` returns, every returned synthetic
window has single-class segment provenance: there is a class `c < 4`
such that for every segment `j < 8`, the window's samples on
`[125*j, 125*(j+1))` are identical to the samples of some input window
labelled `c` on that same interval. -/
theorem interaug_segment_provenance (rand : ℕ → ℕ → ℕ → ℕ)
    (perm : List ℕ) (timg : List Window) (label : List ℤ) (bs : ℕ)
    (w : List Window) (l : List ℤ)
    (h : interaug rand perm timg label bs = some (w, l)) :
    ∀ f ∈ w, ∃ c : ℕ, c < 4 ∧ windowFromClass timg label ((c : ℕ) : ℤ) f := by
  unfold interaug at h
  rw [Option.bind_eq_some] at h
  obtain ⟨parts, hparts, h⟩ := h
  rw [Option.bind_eq_some] at h
  obtain ⟨w2, hw2, h⟩ := h
  rw [Option.map_eq_some'] at h
  obtain ⟨l2, _, hpair⟩ := h
  cases hpair
  intro f hf
  have hfw : f ∈ (parts.map Prod.fst).flatten := selectIdx_mem hw2 f hf
  rw [List.mem_flatten] at hfw
  obtain ⟨ws, hws, hfin⟩ := hfw
  rw [List.mem_map] at hws
  obtain ⟨pr, hprmem, rfl⟩ := hws
  obtain ⟨p0, p1, p2, p3, q0, q1, q2, q3, rfl⟩ := mapM4_eq_some hparts
  rcases p0 with ⟨ws0, ls0⟩
  rcases p1 with ⟨ws1, ls1⟩
  rcases p2 with ⟨ws2, ls2⟩
  rcases p3 with ⟨ws3, ls3⟩
  have hcase : pr = (ws0, ls0) ∨ pr = (ws1, ls1) ∨ pr = (ws2, ls2) ∨
      pr = (ws3, ls3) := by
    simpa using hprmem
  rcases hcase with rfl | rfl | rfl | rfl
  · exact ⟨0, by omega, interaugClass_windows_prov q0 f hfin⟩
  · exact ⟨1, by omega, interaugClass_windows_prov q1 f hfin⟩
  · exact ⟨2, by omega, interaugClass_windows_prov q2 f hfin⟩
  · exact ⟨3, by omega, interaugClass_windows_prov q3 f hfin⟩

/-- Witness for `interaug_segment_provenance`: the first window returned
on the batch `(timgA, labelA)` has single-class provenance. -/
theorem interaug_segment_provenance_witness :
    ∃ c : ℕ, c < 4 ∧ windowFromClass timgA labelA ((c : ℕ) : ℤ)
      (mkAugWindow rand0 0 0 [constW 0]) := by
  have hmem : mkAugWindow rand0 0 0 [constW 0] ∈ wA := by
    unfold wA
    exact List.mem_cons_self _ _
  exact interaug_segment_provenance rand0 permId4 timgA labelA 4 wA
    [0, 1, 2, 3] rfl (mkAugWindow rand0 0 0 [constW 0]) hmem
